import Mathlib

/-!
# Tiberious: persistence adapter and client handler

A shallow embedding of `src/db/redis.go` and `src/handlers/clienthandler.go`.

Go maps are association lists keyed by strings; iteration visits the entries in
list order, so any iteration order of the Go runtime is some ordering of the
list.  The key-value store is a pair of such tables, one of hashes and one of
sets, on which every command succeeds.
-/

namespace Tiberious

/-! ## Go maps -/

/-- Lookup `m[k]` with the comma-ok result as an option. -/
def mapGet {V : Type} : List (String × V) → String → Option V
  | [], _ => none
  | (k', v) :: t, k => if k' = k then some v else mapGet t k

/-- Assignment `m[k] = v`: overwrite the entry of `k`, or add one. -/
def mapSet {V : Type} : List (String × V) → String → V → List (String × V)
  | [], k, v => [(k, v)]
  | (k', v') :: t, k, v => if k' = k then (k, v) :: t else (k', v') :: mapSet t k v

/-- Builtin `delete(m, k)`. -/
def mapDelete {V : Type} (m : List (String × V)) (k : String) : List (String × V) :=
  m.filter (fun e => decide (e.1 ≠ k))

/-- Keys of a map are pairwise distinct. -/
def mapWF {V : Type} (m : List (String × V)) : Prop := (m.map Prod.fst).Nodup

instance mapWF.decidable {V : Type} (m : List (String × V)) : Decidable (mapWF m) :=
  inferInstanceAs (Decidable (m.map Prod.fst).Nodup)

/-! ## The key-value store -/

/-- State of the store: hashes (key to field table) and sets (key to members). -/
structure Store where
  hashes : List (String × List (String × String))
  sets : List (String × List String)
deriving DecidableEq, Repr

/-- Command `SMEMBERS key`; a missing key is the empty set. -/
def SMembers (st : Store) (key : String) : List String :=
  (mapGet st.sets key).getD []

/-- Command `SREM key member`; a set that becomes empty is dropped from the keyspace. -/
def SRem (st : Store) (key member : String) : Store :=
  let s := (SMembers st key).filter (fun x => decide (x ≠ member))
  if s.isEmpty then { st with sets := mapDelete st.sets key }
  else { st with sets := mapSet st.sets key s }

/-- Command `SADD key member`. -/
def SAdd (st : Store) (key member : String) : Store :=
  let s := SMembers st key
  if member ∈ s then st else { st with sets := mapSet st.sets key (s ++ [member]) }

/-- Write commands sent to the store by `updateSet`. -/
inductive Cmd where
  | srem (key member : String)
  | sadd (key member : String)
deriving DecidableEq, Repr

/-- Method `rClient.updateSet` (redis.go 97-132): the store afterwards and the write
commands issued, in order. -/
def updateSet (st : Store) (key : String) (new : List String) : Store × List Cmd :=
  let old := SMembers st key
  let afterRem := old.foldl (fun (acc : Store × List Cmd) o =>
    let rem := new.foldl (fun (rem : Bool) n => if o = n then false else rem) true
    if rem then (SRem acc.1 key o, acc.2 ++ [Cmd.srem key o]) else acc) (st, [])
  new.foldl (fun (acc : Store × List Cmd) n =>
    let add := old.foldl (fun (add : Bool) o => if n = o then false else add) true
    if add then (SAdd acc.1 key n, acc.2 ++ [Cmd.sadd key n]) else acc) afterRem

/-- Body of the first loop of `updateSet` (lines 103-116), for one element `o` of `old`. -/
def remStep (key : String) (new : List String) (acc : Store × List Cmd) (o : String) :
    Store × List Cmd :=
  let rem := new.foldl (fun (rem : Bool) n => if o = n then false else rem) true
  if rem then (SRem acc.1 key o, acc.2 ++ [Cmd.srem key o]) else acc

/-- Body of the second loop of `updateSet` (lines 118-131), for one entry `n` of `new`. -/
def addStep (key : String) (old : List String) (acc : Store × List Cmd) (n : String) :
    Store × List Cmd :=
  let add := old.foldl (fun (add : Bool) o => if n = o then false else add) true
  if add then (SAdd acc.1 key n, acc.2 ++ [Cmd.sadd key n]) else acc

/-! ## Identifiers -/

/-- Type `uuid.UUID` of the uuid library: a slice of bytes. -/
abbrev UUID := List (Fin 256)

/-- Lower-case hexadecimal digit of a nibble. -/
def hexDigit (n : Nat) : Char :=
  if n < 10 then Char.ofNat (48 + n) else Char.ofNat (87 + n)

/-- Function `hex.Encode`: two digits per byte. -/
def hexEncode (bs : List (Fin 256)) : List Char :=
  bs.flatMap (fun b => [hexDigit (b.val / 16), hexDigit (b.val % 16)])

/-- Method `uuid.UUID.String`: the empty string unless the slice holds 16 bytes, else
the 8-4-4-4-12 form. -/
def UUID.String (id : UUID) : String :=
  if id.length ≠ 16 then ""
  else String.mk (hexEncode (id.take 4) ++ '-' :: hexEncode ((id.drop 4).take 2)
    ++ '-' :: hexEncode ((id.drop 6).take 2) ++ '-' :: hexEncode ((id.drop 8).take 2)
    ++ '-' :: hexEncode (id.drop 10))

/-- Value of a hexadecimal digit, as the uuid library's `xvalues` table gives it. -/
def fromHexChar (c : Char) : Option Nat :=
  if '0' ≤ c ∧ c ≤ '9' then some (c.toNat - 48)
  else if 'a' ≤ c ∧ c ≤ 'f' then some (c.toNat - 87)
  else if 'A' ≤ c ∧ c ≤ 'F' then some (c.toNat - 55)
  else none

/-- Function `xtob` of the uuid library: the byte written by two hexadecimal digits. -/
def xtob (hi lo : Char) : Option (Fin 256) :=
  match fromHexChar hi, fromHexChar lo with
  | some h, some l => some (Fin.ofNat (h * 16 + l))
  | _, _ => none

/-- The bytes at the given offsets of `cs`, two digits each; none when a digit is bad. -/
def parseBytes (cs : List Char) : List Nat → Option (List (Fin 256))
  | [] => some []
  | x :: xs =>
    match xtob (cs.getD x ' ') (cs.getD (x + 1) ' '), parseBytes cs xs with
    | some b, some bs => some (b :: bs)
    | _, _ => none

/-- Function `uuid.Parse`: the 36 character form, with an optional `urn:uuid:` in front;
the nil slice when the text is not a UUID. -/
def uuidParse (s : String) : UUID :=
  let cs := if s.data.length = 45 ∧ (String.mk (s.data.take 9)).toLower = "urn:uuid:"
    then s.data.drop 9 else s.data
  if cs.length ≠ 36 then []
  else if cs.getD 8 ' ' ≠ '-' ∨ cs.getD 13 ' ' ≠ '-' ∨ cs.getD 18 ' ' ≠ '-'
      ∨ cs.getD 23 ' ' ≠ '-' then []
  else (parseBytes cs [0, 2, 4, 6, 9, 11, 14, 16, 19, 21, 24, 26, 28, 30, 32, 34]).getD []

/-! ## The persistence adapter -/

/-- Fields of `types.User` the adapter persists. -/
structure User where
  ID : UUID
  Typ : String
  Username : String
  LoginName : String
  Email : String
  Password : String
  Salt : String
  Connected : Bool
  Rooms : List String
  Groups : List String
deriving DecidableEq, Repr

/-- Fields of `types.Room` as the adapter uses it: a record with a member map. -/
structure RoomRecord where
  Title : String
  Group : String
  Private : Bool
  Users : List (String × User)
deriving DecidableEq, Repr

/-- Function `strbool`. -/
def strbool (b : Bool) : String := if b then "true" else "false"

/-- Function `boolstr`. -/
def boolstr (s : String) : Bool := if s = "true" then true else false

/-- Command `HMSET key field value ...`: the fields are set in the hash at `key`, which
is created when missing; other fields of the hash stay. -/
def HMSet (st : Store) (key : String) (pairs : List (String × String)) : Store :=
  let hash := pairs.foldl (fun h fv => mapSet h fv.1 fv.2) ((mapGet st.hashes key).getD [])
  { st with hashes := mapSet st.hashes key hash }

/-- Command `HGETALL key` as a map; a missing key is the empty map. -/
def HGetAllMap (st : Store) (key : String) : List (String × String) :=
  (mapGet st.hashes key).getD []

/-- Go map index `info[name]`: the empty string for a missing field. -/
def field (info : List (String × String)) (name : String) : String :=
  (mapGet info name).getD ""

/-- Matching of some suffix of the text, for a `*` of a pattern. -/
def anySuffix (f : List Char → Bool) : List Char → Bool
  | [] => f []
  | c :: t => f (c :: t) || anySuffix f t

/-- Glob matching of the store's `KEYS` command: `*` matches any run of characters, `?`
one character, a backslash takes the next character as it is written; every other
character matches itself (character classes are not modelled). -/
def globMatch : List Char → List Char → Bool
  | [], s => s.isEmpty
  | c :: p, s =>
    if c = '*' then anySuffix (globMatch p) s
    else
      match s with
      | [] => false
      | x :: t =>
        if c = '?' then globMatch p t
        else if c = '\\' then
          match p with
          | [] => decide (x = c) && globMatch [] t
          | e :: q => decide (x = e) && globMatch q t
        else decide (x = c) && globMatch p t

/-- Characters that a pattern of `globMatch` takes as they are written. -/
def plainChar (c : Char) : Prop := c ≠ '*' ∧ c ≠ '?' ∧ c ≠ '\\'

/-- All keys of the store: the hashes, then the sets. -/
def storeKeys (st : Store) : List String :=
  st.hashes.map Prod.fst ++ st.sets.map Prod.fst

/-- Command `KEYS pattern`. The store promises no order of the keys; here they come in
the order of the tables. -/
def Keys (st : Store) (pattern : String) : List String :=
  (storeKeys st).filter (fun k => globMatch pattern.data k.data)

/-- Method `rClient.getKeySet`. -/
def getKeySet (st : Store) (search : String) : List String := Keys st search

/-- Key of the hash of a user, as `writeUserData` and `deleteUser` build it. -/
def userKey (user : User) : String :=
  "user-" ++ user.Typ ++ "-" ++ user.LoginName ++ "-" ++ user.ID.String

/-- Method `rClient.writeUserData` (redis.go 138-157), with the two `updateSet` calls
it starts run to completion, the one for the rooms first. -/
def writeUserData (st : Store) (user : User) : Store :=
  let st1 := HMSet st ("user-" ++ user.Typ ++ "-" ++ user.LoginName ++ "-" ++ user.ID.String)
    [("id", user.ID.String), ("type", user.Typ), ("username", user.Username),
      ("loginname", user.LoginName), ("email", user.Email), ("password", user.Password),
      ("salt", user.Salt), ("connected", strbool user.Connected)]
  let st2 := (updateSet st1 ("user-" ++ user.Typ ++ "-" ++ user.ID.String ++ "-rooms")
    user.Rooms).1
  (updateSet st2 ("user-" ++ user.Typ ++ "-" ++ user.ID.String ++ "-groups") user.Groups).1

/-- Method `rClient.getUserData` (redis.go 195-240): none is the nil user returned when
no key matches. The store's commands all succeed, so no error is returned. -/
def getUserData (st : Store) (id : String) : Option User :=
  let keys := getKeySet st ("user-*-*-" ++ id)
  match keys with
  | [] => none
  | key0 :: _ =>
    let info := HGetAllMap st key0
    let user : User :=
      { ID := uuidParse (field info "id"),
        Typ := field info "type",
        Username := field info "username",
        LoginName := field info "loginname",
        Email := field info "email",
        Password := field info "password",
        Salt := field info "salt",
        Connected := boolstr (field info "connected"),
        Rooms := [],
        Groups := [] }
    let rooms := SMembers st ("user-" ++ user.Typ ++ "-" ++ user.ID.String ++ "-rooms")
    let user := if rooms.length > 0 then { user with Rooms := rooms } else user
    let groups := SMembers st ("user-" ++ user.Typ ++ "-" ++ user.ID.String ++ "-groups")
    let user := if groups.length > 0 then { user with Groups := groups } else user
    some user

/-- A run-time fault that ends the program. -/
inductive Fault where
  | nilDereference
deriving DecidableEq, Repr

/-- Method `rClient.getRoomData` (redis.go 242-271). Reading `u.ID` of a nil user is
a nil pointer dereference. -/
def getRoomData (st : Store) (gname rname : String) : Except Fault RoomRecord :=
  let info := HGetAllMap st ("room-" ++ gname ++ "-" ++ rname ++ "-info")
  let users := SMembers st ("room-" ++ gname ++ "-" ++ rname ++ "-list")
  let members := users.foldlM (fun (m : List (String × User)) v =>
    match getUserData st v with
    | none => Except.error Fault.nilDereference
    | some u => Except.ok (mapSet m u.ID.String u)) []
  match members with
  | Except.error e => Except.error e
  | Except.ok m =>
    Except.ok { Title := field info "title", Group := field info "group",
                Private := boolstr (field info "private"), Users := m }

/-- Function `GenRedisProto` (redis.go 337-346); `strconv.Itoa` and `strconv.FormatInt`
in base 10 are the decimal numeral, and the size of the byte reader is the number of
bytes of the UTF-8 text. -/
def GenRedisProto (cmd : List String) : String :=
  cmd.foldl (fun ret v =>
      (ret ++ ("$" ++ toString v.utf8ByteSize ++ "\r\n")) ++ (v ++ "\r\n"))
    ("*" ++ toString cmd.length ++ "\r\n")

/-- The encoding as the specification words it: `*<argc>` and a line end, then for each
argument `$<byte-length>`, a line end, the argument and a line end. -/
def respArgs : List String → String
  | [] => ""
  | v :: t => "$" ++ toString v.utf8ByteSize ++ "\r\n" ++ v ++ "\r\n" ++ respArgs t

/-- The whole encoding of a command as the specification words it. -/
def respEncoding (cmd : List String) : String :=
  "*" ++ toString cmd.length ++ "\r\n" ++ respArgs cmd

/-! ## The client handler -/

/-- Type `types.Client`: identifier and connection handle. -/
structure Client where
  ID : UUID
  Conn : Nat
deriving DecidableEq, Repr

/-- Type `types.Room` as the handler uses it: a map from client id to client. -/
abbrev Room := List (String × Client)

/-- Fields of `types.MasterObj` the handler reads. -/
structure MasterObj where
  Action : String
  To : String
  Room : String
  Time : Int
deriving DecidableEq, Repr

/-- A message written to a connection: the relayed inbound payload, or one of the
response envelopes with its response code (the time stamp is left out). -/
inductive Frame where
  | payload (p : List (Fin 256))
  | alertMin (response : Nat)
  | alertFull (response : Nat) (alert : String)
  | errorMin (response : Nat)
  | errorFull (response : Nat) (error : String)
deriving DecidableEq, Repr

/-- Response code of a frame, none for a relayed payload. -/
def Frame.code : Frame → Option Nat
  | .payload _ => none
  | .alertMin r => some r
  | .alertFull r _ => some r
  | .errorMin r => some r
  | .errorFull r _ => some r

/-- The package state: the client table `clients`, and the table of rooms behind
`GetRoom` and `GetNewRoom`. -/
structure ServerState where
  clients : List (String × Client)
  rooms : List (String × Room)
deriving DecidableEq, Repr

/-- Modelled from the spec: function `GetRoom` of the room directory, which is not in
the handler's file; `GetRoom(name) -> (room, exists)` looks the room up by name alone. -/
def GetRoom (st : ServerState) (name : String) : Bool × Room :=
  match mapGet st.rooms name with
  | some room => (true, room)
  | none => (false, [])

/-- Modelled from the spec: function `GetNewRoom` of the room directory, which is not in
the handler's file; it creates the named room with no member and registers it. -/
def GetNewRoom (st : ServerState) (name : String) : ServerState × Room :=
  ({ st with rooms := mapSet st.rooms name [] }, [])

/-- Function `strings.HasPrefix`. -/
def hasPrefix (s pre : String) : Bool := pre.data.isPrefixOf s.data

/-- One pass of the receive loop of `ClientHandler` (lines 76-236) for the raw payload
`p` of `client`, decoded as `message`: the state afterwards and the frames written, each
with the connection it is written to, in order.  A room is a Go map, so an assignment to
or a deletion from the room the directory returned changes the directory's room. -/
def handleEnvelope (st : ServerState) (client : Client) (p : List (Fin 256))
    (message : MasterObj) : ServerState × List (Nat × Frame) :=
  if message.Time ≤ 0 then
    (st, [(client.Conn, Frame.errorFull 400 "missing or invalid time")])
  else if message.Action = "msg" then
    if hasPrefix message.To "#" then
      match GetRoom st message.To with
      | (false, _) => (st, [(client.Conn, Frame.errorMin 404)])
      | (true, room) =>
        (st, room.map (fun e => (e.2.Conn, Frame.payload p))
          ++ [(client.Conn, Frame.alertMin 200)])
    else
      let loop := st.clients.foldl
        (fun (acc : List (Nat × Frame) × Bool) e =>
          if message.To = e.1 then (acc.1 ++ [(e.2.Conn, Frame.payload p)], true) else acc)
        ([], false)
      if loop.2 then (st, loop.1 ++ [(client.Conn, Frame.alertMin 200)])
      else (st, loop.1 ++ [(client.Conn, Frame.errorMin 404)])
  else if message.Action = "join" then
    let found := GetRoom st message.Room
    let created := if found.1 then (st, found.2) else GetNewRoom st message.Room
    let room := mapSet created.2 client.ID.String client
    ({ created.1 with rooms := mapSet created.1.rooms message.Room room },
      [(client.Conn, Frame.alertMin 200)])
  else if message.Action = "leave" then
    (st, [])
  else if message.Action = "part" then
    match GetRoom st message.Room with
    | (false, _) => (st, [(client.Conn, Frame.errorMin 404)])
    | (true, room) =>
      let ispresent := room.any (fun e => decide (e.1 = client.ID.String))
      if !ispresent then (st, [(client.Conn, Frame.errorMin 410)])
      else
        ({ st with rooms := mapSet st.rooms message.Room (mapDelete room client.ID.String) },
          [(client.Conn, Frame.alertMin 200)])
  else
    (st, [(client.Conn, Frame.errorMin 400)])

/-! ## Example data -/

/-- Identifier of the example client A. -/
def idA : UUID := [0, 1, 2, 3, 4, 5, 6, 7, 8, 9, 10, 11, 12, 13, 14, 15]

/-- Identifier of the example client B. -/
def idB : UUID := [255, 1, 2, 3, 4, 5, 6, 7, 8, 9, 10, 11, 12, 13, 14, 171]

/-- Example client A, on connection 1. -/
def clientA : Client := { ID := idA, Conn := 1 }

/-- Example client B, on connection 2. -/
def clientB : Client := { ID := idB, Conn := 2 }

/-- Two connected clients; A has joined the room `#lobby`. -/
def lobbyState : ServerState :=
  { clients := [(idA.String, clientA), (idB.String, clientB)],
    rooms := [("#lobby", [(idA.String, clientA)])] }

/-- A store with the set `{a, b, c}` at key `k`. -/
def abcStore : Store := { hashes := [], sets := [("k", ["a", "b", "c"])] }

/-- A store in which the room `r` of group `g` lists a member id with no user record. -/
def ghostStore : Store := { hashes := [], sets := [("room-g-r-list", ["ghost"])] }

/-- Example user with identifier `idA`. -/
def userA : User :=
  { ID := idA, Typ := "default", Username := "Al", LoginName := "al", Email := "al@example.org",
    Password := "pw", Salt := "na", Connected := true, Rooms := ["#lobby", "#den"],
    Groups := ["staff"] }

/-- A store that holds the record of another user and one of its sets. -/
def otherStore : Store :=
  (writeUserData { hashes := [], sets := [] }
    { userA with ID := idB, LoginName := "bo", Rooms := ["#den"], Groups := [] })

/-- A store that still holds a record of `idA` under an earlier login name. -/
def staleStore : Store :=
  (writeUserData { hashes := [], sets := [] }
    { userA with LoginName := "old", Rooms := [], Groups := [] })

/-! ## Map lemmas -/

theorem mapGet_mapSet_self {V : Type} (m : List (String × V)) (k : String) (v : V) :
    mapGet (mapSet m k v) k = some v := by
  induction m with
  | nil => simp [mapSet, mapGet]
  | cons e t ih =>
    obtain ⟨k', v'⟩ := e
    by_cases h : k' = k
    · simp [mapSet, mapGet, h]
    · simp [mapSet, mapGet, h, ih]

theorem mapGet_mapSet_other {V : Type} (m : List (String × V)) (k k2 : String) (v : V)
    (h : k2 ≠ k) : mapGet (mapSet m k v) k2 = mapGet m k2 := by
  induction m with
  | nil => simp [mapSet, mapGet, h.symm]
  | cons e t ih =>
    obtain ⟨k', v'⟩ := e
    by_cases h1 : k' = k
    · subst h1
      simp [mapSet, mapGet, h.symm]
    · by_cases h2 : k' = k2
      · subst h2
        simp [mapSet, mapGet, h]
      · simp [mapSet, mapGet, h1, h2, ih]

theorem mapGet_mapDelete_self {V : Type} (m : List (String × V)) (k : String) :
    mapGet (mapDelete m k) k = none := by
  induction m with
  | nil => simp [mapDelete, mapGet]
  | cons e t ih =>
    obtain ⟨k', v'⟩ := e
    by_cases h : k' = k
    · simpa [mapDelete, List.filter_cons, h] using ih
    · simpa [mapDelete, List.filter_cons, h, mapGet] using ih

theorem mapGet_mapDelete_other {V : Type} (m : List (String × V)) (k k2 : String)
    (h : k2 ≠ k) : mapGet (mapDelete m k) k2 = mapGet m k2 := by
  induction m with
  | nil => simp [mapDelete, mapGet]
  | cons e t ih =>
    obtain ⟨k', v'⟩ := e
    by_cases h1 : k' = k
    · subst h1
      simpa [mapDelete, List.filter_cons, mapGet, h.symm] using ih
    · by_cases h2 : k' = k2
      · subst h2
        simp [mapDelete, List.filter_cons, mapGet, h]
      · simpa [mapDelete, List.filter_cons, h1, mapGet, h2] using ih


/-! ## Store lemmas -/

theorem SMembers_SRem_self (st : Store) (key m : String) :
    SMembers (SRem st key m) key = (SMembers st key).filter (fun x => decide (x ≠ m)) := by
  unfold SRem
  by_cases h : ((SMembers st key).filter (fun x => decide (x ≠ m))).isEmpty = true
  · simp only [h, if_true]
    rw [List.isEmpty_iff] at h
    rw [h]
    simp [SMembers, mapGet_mapDelete_self]
  · simp only [h]
    simp [SMembers, mapGet_mapSet_self]

theorem SMembers_SRem_other (st : Store) (key m k : String) (h : k ≠ key) :
    SMembers (SRem st key m) k = SMembers st k := by
  unfold SRem
  dsimp only
  split
  · simp [SMembers, mapGet_mapDelete_other _ _ _ h]
  · simp [SMembers, mapGet_mapSet_other _ _ _ _ h]

theorem hashes_SRem (st : Store) (key m : String) : (SRem st key m).hashes = st.hashes := by
  unfold SRem
  dsimp only
  split <;> rfl

theorem mem_SMembers_SAdd_self (st : Store) (key m x : String) :
    x ∈ SMembers (SAdd st key m) key ↔ x ∈ SMembers st key ∨ x = m := by
  unfold SAdd
  by_cases h : m ∈ SMembers st key
  · simp only [h, if_true]
    constructor
    · exact Or.inl
    · rintro (h1 | h1)
      · exact h1
      · exact h1 ▸ h
  · simp only [h, if_false]
    simp [SMembers, mapGet_mapSet_self]

theorem SMembers_SAdd_other (st : Store) (key m k : String) (h : k ≠ key) :
    SMembers (SAdd st key m) k = SMembers st k := by
  unfold SAdd
  dsimp only
  split
  · rfl
  · simp [SMembers, mapGet_mapSet_other _ _ _ _ h]

theorem hashes_SAdd (st : Store) (key m : String) : (SAdd st key m).hashes = st.hashes := by
  unfold SAdd
  dsimp only
  split <;> rfl

/-! ## Set reconciliation -/

theorem updateSet_eq (st : Store) (key : String) (new : List String) :
    updateSet st key new
      = new.foldl (addStep key (SMembers st key))
          ((SMembers st key).foldl (remStep key new) (st, [])) := rfl

theorem flagLoop_eq (x : String) (l : List String) (b : Bool) :
    l.foldl (fun (r : Bool) y => if x = y then false else r) b = (b && decide (x ∉ l)) := by
  induction l generalizing b with
  | nil => simp
  | cons y t ih =>
    rw [List.foldl_cons, ih]
    by_cases h : x = y
    · simp [h]
    · simp [h]

theorem remStep_eq (key : String) (new : List String) (acc : Store × List Cmd) (o : String) :
    remStep key new acc o
      = if o ∈ new then acc else (SRem acc.1 key o, acc.2 ++ [Cmd.srem key o]) := by
  unfold remStep
  dsimp only
  rw [flagLoop_eq]
  by_cases h : o ∈ new <;> simp [h]

theorem addStep_eq (key : String) (old : List String) (acc : Store × List Cmd) (n : String) :
    addStep key old acc n
      = if n ∈ old then acc else (SAdd acc.1 key n, acc.2 ++ [Cmd.sadd key n]) := by
  unfold addStep
  dsimp only
  rw [flagLoop_eq]
  by_cases h : n ∈ old <;> simp [h]

theorem remLoop_log (key : String) (new l : List String) (acc : Store × List Cmd) :
    (l.foldl (remStep key new) acc).2
      = acc.2 ++ (l.filter (fun o => decide (o ∉ new))).map (Cmd.srem key) := by
  induction l generalizing acc with
  | nil => simp
  | cons o t ih =>
    rw [List.foldl_cons, ih, remStep_eq]
    by_cases h : o ∈ new <;> simp [h, List.filter_cons]

theorem addLoop_log (key : String) (old l : List String) (acc : Store × List Cmd) :
    (l.foldl (addStep key old) acc).2
      = acc.2 ++ (l.filter (fun n => decide (n ∉ old))).map (Cmd.sadd key) := by
  induction l generalizing acc with
  | nil => simp
  | cons n t ih =>
    rw [List.foldl_cons, ih, addStep_eq]
    by_cases h : n ∈ old <;> simp [h, List.filter_cons]

theorem remLoop_members (key : String) (new l : List String) (acc : Store × List Cmd)
    (x : String) :
    x ∈ SMembers (l.foldl (remStep key new) acc).1 key
      ↔ x ∈ SMembers acc.1 key ∧ (x ∈ l → x ∈ new) := by
  induction l generalizing acc with
  | nil => simp
  | cons o t ih =>
    rw [List.foldl_cons, ih, remStep_eq]
    by_cases h : o ∈ new
    · simp only [h, if_true, List.mem_cons]
      constructor
      · rintro ⟨h1, h2⟩
        refine ⟨h1, ?_⟩
        rintro (h3 | h3)
        · exact h3 ▸ h
        · exact h2 h3
      · rintro ⟨h1, h2⟩
        exact ⟨h1, fun h3 => h2 (Or.inr h3)⟩
    · simp only [h, if_false, List.mem_cons, SMembers_SRem_self, List.mem_filter,
        decide_eq_true_eq]
      constructor
      · rintro ⟨⟨h1, h2⟩, h3⟩
        refine ⟨h1, ?_⟩
        rintro (h4 | h4)
        · exact absurd h4 h2
        · exact h3 h4
      · rintro ⟨h1, h2⟩
        refine ⟨⟨h1, ?_⟩, fun h3 => h2 (Or.inr h3)⟩
        intro h3
        exact h (h3 ▸ h2 (Or.inl h3))

theorem addLoop_members (key : String) (old l : List String) (acc : Store × List Cmd)
    (x : String) :
    x ∈ SMembers (l.foldl (addStep key old) acc).1 key
      ↔ x ∈ SMembers acc.1 key ∨ (x ∈ l ∧ x ∉ old) := by
  induction l generalizing acc with
  | nil => simp
  | cons n t ih =>
    rw [List.foldl_cons, ih, addStep_eq]
    by_cases h : n ∈ old
    · simp only [h, if_true, List.mem_cons]
      constructor
      · rintro (h1 | ⟨h1, h2⟩)
        · exact Or.inl h1
        · exact Or.inr ⟨Or.inr h1, h2⟩
      · rintro (h1 | ⟨h1 | h1, h2⟩)
        · exact Or.inl h1
        · exact absurd (h1 ▸ h) h2
        · exact Or.inr ⟨h1, h2⟩
    · simp only [h, if_false, List.mem_cons, mem_SMembers_SAdd_self]
      constructor
      · rintro ((h1 | h1) | ⟨h1, h2⟩)
        · exact Or.inl h1
        · exact Or.inr ⟨Or.inl h1, h1 ▸ h⟩
        · exact Or.inr ⟨Or.inr h1, h2⟩
      · rintro (h1 | ⟨h1 | h1, h2⟩)
        · exact Or.inl (Or.inl h1)
        · exact Or.inl (Or.inr h1)
        · exact Or.inr ⟨h1, h2⟩

theorem remLoop_frame (key : String) (new l : List String) (acc : Store × List Cmd) :
    (∀ k, k ≠ key → SMembers (l.foldl (remStep key new) acc).1 k = SMembers acc.1 k)
      ∧ (l.foldl (remStep key new) acc).1.hashes = acc.1.hashes := by
  induction l generalizing acc with
  | nil => simp
  | cons o t ih =>
    rw [List.foldl_cons, remStep_eq]
    by_cases h : o ∈ new
    · simpa [h] using ih acc
    · simp only [h, if_false]
      refine ⟨fun k hk => ?_, ?_⟩
      · rw [(ih _).1 k hk, SMembers_SRem_other _ _ _ _ hk]
      · rw [(ih _).2, hashes_SRem]

theorem addLoop_frame (key : String) (old l : List String) (acc : Store × List Cmd) :
    (∀ k, k ≠ key → SMembers (l.foldl (addStep key old) acc).1 k = SMembers acc.1 k)
      ∧ (l.foldl (addStep key old) acc).1.hashes = acc.1.hashes := by
  induction l generalizing acc with
  | nil => simp
  | cons n t ih =>
    rw [List.foldl_cons, addStep_eq]
    by_cases h : n ∈ old
    · simpa [h] using ih acc
    · simp only [h, if_false]
      refine ⟨fun k hk => ?_, ?_⟩
      · rw [(ih _).1 k hk, SMembers_SAdd_other _ _ _ _ hk]
      · rw [(ih _).2, hashes_SAdd]

theorem mem_updateSet (st : Store) (key : String) (new : List String) (x : String) :
    x ∈ SMembers (updateSet st key new).1 key ↔ x ∈ new := by
  rw [updateSet_eq, addLoop_members, remLoop_members]
  constructor
  · rintro (⟨h1, h2⟩ | ⟨h1, _⟩)
    · exact h2 h1
    · exact h1
  · intro h
    by_cases h1 : x ∈ SMembers st key
    · exact Or.inl ⟨h1, fun _ => h⟩
    · exact Or.inr ⟨h, h1⟩

theorem updateSet_frame (st : Store) (key : String) (new : List String) :
    (∀ k, k ≠ key → SMembers (updateSet st key new).1 k = SMembers st k)
      ∧ (updateSet st key new).1.hashes = st.hashes := by
  rw [updateSet_eq]
  refine ⟨fun k hk => ?_, ?_⟩
  · rw [(addLoop_frame _ _ _ _).1 k hk, (remLoop_frame _ _ _ _).1 k hk]
  · rw [(addLoop_frame _ _ _ _).2, (remLoop_frame _ _ _ _).2]

theorem updateSet_log (st : Store) (key : String) (new : List String) :
    (updateSet st key new).2
      = ((SMembers st key).filter (fun o => decide (o ∉ new))).map (Cmd.srem key)
        ++ (new.filter (fun n => decide (n ∉ SMembers st key))).map (Cmd.sadd key) := by
  rw [updateSet_eq, addLoop_log, remLoop_log]
  simp

theorem updateSet_order (st : Store) (k1 k2 : String) (l1 l2 : List String) (h : k1 ≠ k2)
    (k x : String) :
    x ∈ SMembers (updateSet (updateSet st k1 l1).1 k2 l2).1 k
      ↔ x ∈ SMembers (updateSet (updateSet st k2 l2).1 k1 l1).1 k := by
  by_cases h1 : k = k1
  · subst h1
    rw [(updateSet_frame _ _ _).1 k h, mem_updateSet, mem_updateSet]
  · by_cases h2 : k = k2
    · subst h2
      rw [mem_updateSet, (updateSet_frame _ _ _).1 k h1, mem_updateSet]
    · rw [(updateSet_frame _ _ _).1 k h2, (updateSet_frame _ _ _).1 k h1,
        (updateSet_frame _ _ _).1 k h1, (updateSet_frame _ _ _).1 k h2]

/-! ## Client handler lemmas -/

theorem mapGet_isSome_iff {V : Type} (m : List (String × V)) (k : String) :
    (mapGet m k).isSome = true ↔ k ∈ m.map Prod.fst := by
  induction m with
  | nil => simp [mapGet]
  | cons e t ih =>
    obtain ⟨k', v'⟩ := e
    by_cases h : k' = k
    · simp [mapGet, h]
    · have h2 : ¬ k = k' := fun h3 => h h3.symm
      simp [mapGet, h, h2, ih]

theorem mapGet_eq_none_iff {V : Type} (m : List (String × V)) (k : String) :
    mapGet m k = none ↔ k ∉ m.map Prod.fst := by
  rw [← mapGet_isSome_iff]
  cases mapGet m k <;> simp

theorem relayLoop_absent (dst : String) (p : List (Fin 256)) (m : List (String × Client))
    (acc : List (Nat × Frame) × Bool) (h : dst ∉ m.map Prod.fst) :
    m.foldl (fun (acc : List (Nat × Frame) × Bool) e =>
      if dst = e.1 then (acc.1 ++ [(e.2.Conn, Frame.payload p)], true) else acc) acc = acc := by
  induction m generalizing acc with
  | nil => rfl
  | cons e t ih =>
    simp only [List.map_cons, List.mem_cons, not_or] at h
    rw [List.foldl_cons, if_neg h.1]
    exact ih acc h.2

theorem relayLoop_present (dst : String) (p : List (Fin 256)) (m : List (String × Client))
    (acc : List (Nat × Frame) × Bool) (c : Client) (hwf : mapWF m)
    (h : mapGet m dst = some c) :
    m.foldl (fun (acc : List (Nat × Frame) × Bool) e =>
      if dst = e.1 then (acc.1 ++ [(e.2.Conn, Frame.payload p)], true) else acc) acc
      = (acc.1 ++ [(c.Conn, Frame.payload p)], true) := by
  induction m generalizing acc with
  | nil => simp [mapGet] at h
  | cons e t ih =>
    obtain ⟨k', v'⟩ := e
    have hwf2 : k' ∉ t.map Prod.fst ∧ mapWF t := by
      simpa [mapWF] using hwf
    rw [List.foldl_cons]
    by_cases hk : k' = dst
    · subst hk
      have hc : v' = c := by simpa [mapGet] using h
      subst hc
      simp only [if_true]
      exact relayLoop_absent _ p t _ hwf2.1
    · have hk2 : ¬ dst = k' := fun h3 => hk h3.symm
      simp only [hk2, if_false]
      have h2 : mapGet t dst = some c := by simpa [mapGet, hk] using h
      exact ih acc hwf2.2 h2

theorem handleEnvelope_part (st : ServerState) (client : Client)
    (p : List (Fin 256)) (message : MasterObj) (ht : 0 < message.Time)
    (ha : message.Action = "part") :
    (mapGet st.rooms message.Room = none →
        handleEnvelope st client p message = (st, [(client.Conn, Frame.errorMin 404)]))
      ∧ (∀ room, mapGet st.rooms message.Room = some room →
          mapGet room client.ID.String = none →
          handleEnvelope st client p message = (st, [(client.Conn, Frame.errorMin 410)]))
      ∧ (∀ room c, mapGet st.rooms message.Room = some room →
          mapGet room client.ID.String = some c →
          handleEnvelope st client p message
            = (ServerState.mk st.clients
                (mapSet st.rooms message.Room (mapDelete room client.ID.String)),
                [(client.Conn, Frame.alertMin 200)])) := by
  have ht2 : ¬ message.Time ≤ 0 := not_le.mpr ht
  have h1 : ¬ message.Action = "msg" := by rw [ha]; decide
  have h2 : ¬ message.Action = "join" := by rw [ha]; decide
  have h3 : ¬ message.Action = "leave" := by rw [ha]; decide
  have hany : ∀ room : Room, room.any (fun e => decide (e.1 = client.ID.String))
      = (mapGet room client.ID.String).isSome := by
    intro room
    induction room with
    | nil => rfl
    | cons e t ih =>
      by_cases he : e.1 = client.ID.String
      · simp [mapGet, he]
      · simp only [List.any_cons, he, decide_False, Bool.false_or, mapGet, if_false]
        exact ih
  unfold handleEnvelope
  rw [if_neg ht2, if_neg h1, if_neg h2, if_neg h3, if_pos ha]
  refine ⟨fun hn => ?_, fun room hr hn => ?_, fun room c hr hc => ?_⟩
  · simp [GetRoom, hn]
  · simp [GetRoom, hr, hany, hn]
  · simp [GetRoom, hr, hany, hc]

theorem handleEnvelope_leave (st : ServerState) (client : Client)
    (p : List (Fin 256)) (message : MasterObj) (ht : 0 < message.Time)
    (ha : message.Action = "leave") :
    handleEnvelope st client p message = (st, []) := by
  have ht2 : ¬ message.Time ≤ 0 := not_le.mpr ht
  have h1 : ¬ message.Action = "msg" := by rw [ha]; decide
  have h2 : ¬ message.Action = "join" := by rw [ha]; decide
  unfold handleEnvelope
  rw [if_neg ht2, if_neg h1, if_neg h2, if_pos ha]

/-! ## Protocol text -/

theorem protoLoop_eq (cmd : List String) (acc : String) :
    cmd.foldl (fun ret v =>
      (ret ++ ("$" ++ toString v.utf8ByteSize ++ "\r\n")) ++ (v ++ "\r\n")) acc
      = acc ++ respArgs cmd := by
  induction cmd generalizing acc with
  | nil => simp [respArgs]
  | cons v t ih =>
    rw [List.foldl_cons, ih]
    simp only [respArgs, String.append_assoc]

/-! ## Identifier lemmas -/

set_option maxRecDepth 100000 in
theorem xtob_hexDigit (b : Fin 256) :
    xtob (hexDigit (b.val / 16)) (hexDigit (b.val % 16)) = some b := by
  revert b
  decide

theorem hexDigit_plain (n : Nat) (h : n < 16) :
    hexDigit n ≠ '*' ∧ hexDigit n ≠ '?' ∧ hexDigit n ≠ '\\' ∧ hexDigit n ≠ 's' := by
  revert n
  decide

theorem uuidParse_String (id : UUID) (h : id.length = 16 ∨ id = []) :
    uuidParse id.String = id := by
  rcases h with h | h
  · match id, h with
    | [b0, b1, b2, b3, b4, b5, b6, b7, b8, b9, b10, b11, b12, b13, b14, b15], _ =>
      simp [uuidParse, UUID.String, hexEncode, parseBytes, xtob_hexDigit]
  · rw [h]
    decide

/-! ## Pattern lemmas -/

theorem anySuffix_iff (f : List Char → Bool) (s : List Char) :
    anySuffix f s = true ↔ ∃ s1 s2, s = s1 ++ s2 ∧ f s2 = true := by
  induction s with
  | nil =>
    simp only [anySuffix]
    constructor
    · intro h
      exact ⟨[], [], rfl, h⟩
    · rintro ⟨s1, s2, h1, h2⟩
      have h3 : s2 = [] := (List.append_eq_nil.1 h1.symm).2
      rw [← h3]
      exact h2
  | cons c t ih =>
    simp only [anySuffix, Bool.or_eq_true, ih]
    constructor
    · rintro (h | ⟨s1, s2, h1, h2⟩)
      · exact ⟨[], c :: t, rfl, h⟩
      · exact ⟨c :: s1, s2, by rw [h1]; rfl, h2⟩
    · rintro ⟨s1, s2, h1, h2⟩
      cases s1 with
      | nil =>
        left
        rw [h1]
        exact h2
      | cons d s1 =>
        right
        simp only [List.cons_append, List.cons.injEq] at h1
        exact ⟨s1, s2, h1.2, h2⟩

theorem globMatch_star (p s : List Char) :
    globMatch ('*' :: p) s = anySuffix (globMatch p) s := by
  rw [globMatch.eq_def]
  simp

theorem globMatch_plain_nil (a : Char) (p : List Char) (ha : plainChar a) :
    globMatch (a :: p) [] = false := by
  rw [globMatch.eq_def]
  simp [ha.1]

theorem globMatch_plain_cons (a x : Char) (p t : List Char) (ha : plainChar a) :
    globMatch (a :: p) (x :: t) = (decide (x = a) && globMatch p t) := by
  rw [globMatch.eq_def]
  simp [ha.1, ha.2.1, ha.2.2]

theorem globMatch_plain_append (l p s : List Char) (hl : ∀ c ∈ l, plainChar c) :
    globMatch (l ++ p) (l ++ s) = globMatch p s := by
  induction l with
  | nil => rfl
  | cons a l ih =>
    have h1 : plainChar a := hl a (List.mem_cons_self a l)
    have h2 : ∀ c ∈ l, plainChar c := fun c hc => hl c (List.mem_cons_of_mem a hc)
    rw [List.cons_append, List.cons_append, globMatch_plain_cons a a _ _ h1, ih h2]
    simp

theorem globMatch_star_append (p t s : List Char) (h : globMatch p s = true) :
    globMatch ('*' :: p) (t ++ s) = true := by
  rw [globMatch_star, anySuffix_iff]
  exact ⟨t, s, rfl, h⟩

theorem globMatch_last (p : List Char) (c : Char) (hc : plainChar c)
    (hp : ∀ x ∈ p, x ≠ '?' ∧ x ≠ '\\') (s : List Char)
    (h : globMatch (p ++ [c]) s = true) : ∃ s1, s = s1 ++ [c] := by
  induction p generalizing s with
  | nil =>
    cases s with
    | nil => simp [globMatch_plain_nil c [] hc] at h
    | cons x t =>
      rw [List.nil_append, globMatch_plain_cons c x [] t hc] at h
      simp only [globMatch.eq_1, Bool.and_eq_true, decide_eq_true_eq, List.isEmpty_iff] at h
      exact ⟨[], by rw [h.1, h.2]; rfl⟩
  | cons a p ih =>
    have hp2 : ∀ x ∈ p, x ≠ '?' ∧ x ≠ '\\' := fun x hx => hp x (List.mem_cons_of_mem a hx)
    by_cases ha : a = '*'
    · subst ha
      rw [List.cons_append, globMatch_star, anySuffix_iff] at h
      obtain ⟨s1, s2, h1, h2⟩ := h
      obtain ⟨s3, h3⟩ := ih hp2 s2 h2
      exact ⟨s1 ++ s3, by rw [h1, h3, List.append_assoc]⟩
    · have hpl : plainChar a := ⟨ha, (hp a (List.mem_cons_self a p)).1,
        (hp a (List.mem_cons_self a p)).2⟩
      cases s with
      | nil => simp [globMatch_plain_nil a _ hpl] at h
      | cons x t =>
        rw [List.cons_append, globMatch_plain_cons a x _ t hpl] at h
        simp only [Bool.and_eq_true, decide_eq_true_eq] at h
        obtain ⟨s3, h3⟩ := ih hp2 t h.2
        exact ⟨x :: s3, by rw [h3]; rfl⟩

theorem hexEncode_chars (bs : List (Fin 256)) (c : Char) (hc : c ∈ hexEncode bs) :
    plainChar c ∧ c ≠ 's' := by
  have hd : ∀ n, n < 16 → plainChar (hexDigit n) ∧ hexDigit n ≠ 's' := fun n hn =>
    ⟨⟨(hexDigit_plain n hn).1, (hexDigit_plain n hn).2.1, (hexDigit_plain n hn).2.2.1⟩,
      (hexDigit_plain n hn).2.2.2⟩
  unfold hexEncode at hc
  obtain ⟨b, _, hb⟩ := List.mem_flatMap.1 hc
  simp only [List.mem_cons, List.mem_singleton, List.not_mem_nil, or_false] at hb
  rcases hb with hb | hb
  · rw [hb]
    exact hd _ (by omega)
  · rw [hb]
    exact hd _ (by omega)

theorem uuidString_chars (id : UUID) (c : Char) (hc : c ∈ id.String.data) :
    plainChar c ∧ c ≠ 's' := by
  have hdash : plainChar '-' ∧ '-' ≠ 's' := by
    unfold plainChar
    decide
  unfold UUID.String at hc
  split at hc
  · simp at hc
  · simp only [List.mem_append, List.mem_cons] at hc
    rcases hc with (((hc | hc | hc) | hc | hc) | hc | hc) | hc | hc
    all_goals first | exact hexEncode_chars _ c hc | (rw [hc]; exact hdash)

theorem uuidString_last (id : UUID) (h : id.length = 16) :
    ∃ body n, n < 16 ∧ id.String.data = body ++ [hexDigit n] := by
  match id, h with
  | [b0, b1, b2, b3, b4, b5, b6, b7, b8, b9, b10, b11, b12, b13, b14, b15], _ =>
    refine ⟨(UUID.String [b0, b1, b2, b3, b4, b5, b6, b7, b8, b9, b10, b11, b12, b13,
      b14, b15]).data.dropLast, b15.val % 16, by omega, ?_⟩
    simp [UUID.String, hexEncode]

/-! ## User keys -/

theorem userPattern_matches (t l : String) (id : UUID) :
    globMatch ("user-*-*-" ++ id.String).data
      ("user-" ++ t ++ "-" ++ l ++ "-" ++ id.String).data = true := by
  have hplain : ∀ c ∈ '-' :: id.String.data, plainChar c := by
    intro c hc
    rcases List.mem_cons.1 hc with hc | hc
    · rw [hc]
      unfold plainChar
      decide
    · exact (uuidString_chars id c hc).1
  have hdash : plainChar '-' := hplain '-' (List.mem_cons_self _ _)
  have huser : ∀ c ∈ "user-".data, plainChar c := by
    unfold plainChar
    decide
  have h1 : globMatch ('-' :: id.String.data) ('-' :: id.String.data) = true := by
    have := globMatch_plain_append ('-' :: id.String.data) [] [] hplain
    simpa using this
  have h2 : globMatch ('-' :: '*' :: '-' :: id.String.data)
      ('-' :: (l.data ++ '-' :: id.String.data)) = true := by
    rw [globMatch_plain_cons _ _ _ _ hdash, globMatch_star_append _ _ _ h1]
    simp
  have h3 : globMatch ('*' :: '-' :: '*' :: '-' :: id.String.data)
      (t.data ++ '-' :: (l.data ++ '-' :: id.String.data)) = true :=
    globMatch_star_append _ _ _ h2
  have h4 := globMatch_plain_append "user-".data
    ('*' :: '-' :: '*' :: '-' :: id.String.data)
    (t.data ++ '-' :: (l.data ++ '-' :: id.String.data)) huser
  rw [h3] at h4
  have e1 : ("user-*-*-" ++ id.String).data
      = "user-".data ++ '*' :: '-' :: '*' :: '-' :: id.String.data := by
    simp [String.data_append]
  have e2 : ("user-" ++ t ++ "-" ++ l ++ "-" ++ id.String).data
      = "user-".data ++ (t.data ++ '-' :: (l.data ++ '-' :: id.String.data)) := by
    simp [String.data_append, List.append_assoc]
  rw [e1, e2]
  exact h4

theorem userPattern_last (id : UUID) :
    ∃ body c, ("user-*-*-" ++ id.String).data = body ++ [c] ∧ plainChar c ∧ c ≠ 's'
      ∧ ∀ x ∈ body, x ≠ '?' ∧ x ≠ '\\' := by
  have hlit : ∀ x ∈ "user-*-*-".data, x ≠ '?' ∧ x ≠ '\\' := by decide
  by_cases h : id.length = 16
  · obtain ⟨body, n, hn, hbody⟩ := uuidString_last id h
    refine ⟨"user-*-*-".data ++ body, hexDigit n, ?_, ?_, (hexDigit_plain n hn).2.2.2, ?_⟩
    · rw [String.data_append, hbody, List.append_assoc]
    · exact ⟨(hexDigit_plain n hn).1, (hexDigit_plain n hn).2.1, (hexDigit_plain n hn).2.2.1⟩
    · intro x hx
      rcases List.mem_append.1 hx with hx | hx
      · exact hlit x hx
      · have hx2 : x ∈ id.String.data := by
          rw [hbody]
          exact List.mem_append_left _ hx
        exact ⟨(uuidString_chars id x hx2).1.2.1, (uuidString_chars id x hx2).1.2.2⟩
  · have he : id.String = "" := by
      unfold UUID.String
      rw [if_pos h]
    refine ⟨"user-*-*".data, '-', ?_, ?_, by decide, by decide⟩
    · rw [he]
      rfl
    · unfold plainChar
      decide

theorem userPattern_rejects (id : UUID) (pre : String) :
    globMatch ("user-*-*-" ++ id.String).data (pre ++ "s").data = false := by
  obtain ⟨body, c, hdata, hc, hcs, hp⟩ := userPattern_last id
  cases hg : globMatch ("user-*-*-" ++ id.String).data (pre ++ "s").data with
  | false => rfl
  | true =>
    exfalso
    rw [hdata] at hg
    obtain ⟨s1, hs1⟩ := globMatch_last _ _ hc hp _ hg
    have e2 : (pre ++ "s").data = pre.data ++ ['s'] := by
      rw [String.data_append]
    rw [e2] at hs1
    have := List.append_inj' hs1 rfl
    have h3 : 's' = c := by simpa using this.2
    exact hcs h3.symm

/-! ## Keys of the store -/

theorem mem_keys_mapSet {V : Type} (m : List (String × V)) (k : String) (v : V) (x : String) :
    x ∈ (mapSet m k v).map Prod.fst ↔ x ∈ m.map Prod.fst ∨ x = k := by
  rw [← mapGet_isSome_iff, ← mapGet_isSome_iff]
  by_cases h : x = k
  · subst h
    simp [mapGet_mapSet_self]
  · simp [mapGet_mapSet_other _ _ _ _ h, h]

theorem mem_keys_mapDelete {V : Type} (m : List (String × V)) (k x : String)
    (h : x ∈ (mapDelete m k).map Prod.fst) : x ∈ m.map Prod.fst := by
  unfold mapDelete at h
  obtain ⟨e, he, hx⟩ := List.mem_map.1 h
  exact List.mem_map.2 ⟨e, (List.mem_filter.1 he).1, hx⟩

theorem keys_SRem (st : Store) (key m x : String)
    (h : x ∈ (SRem st key m).sets.map Prod.fst) : x ∈ st.sets.map Prod.fst ∨ x = key := by
  unfold SRem at h
  dsimp only at h
  split at h
  · exact Or.inl (mem_keys_mapDelete _ _ _ h)
  · exact (mem_keys_mapSet _ _ _ _).1 h

theorem keys_SAdd (st : Store) (key m x : String)
    (h : x ∈ (SAdd st key m).sets.map Prod.fst) : x ∈ st.sets.map Prod.fst ∨ x = key := by
  unfold SAdd at h
  dsimp only at h
  split at h
  · exact Or.inl h
  · exact (mem_keys_mapSet _ _ _ _).1 h

theorem keys_remLoop (key : String) (new l : List String) (acc : Store × List Cmd)
    (x : String) (h : x ∈ (l.foldl (remStep key new) acc).1.sets.map Prod.fst) :
    x ∈ acc.1.sets.map Prod.fst ∨ x = key := by
  induction l generalizing acc with
  | nil => exact Or.inl h
  | cons o t ih =>
    rw [List.foldl_cons] at h
    rcases ih _ h with h1 | h1
    · rw [remStep_eq] at h1
      split at h1
      · exact Or.inl h1
      · exact keys_SRem _ _ _ _ h1
    · exact Or.inr h1

theorem keys_addLoop (key : String) (old l : List String) (acc : Store × List Cmd)
    (x : String) (h : x ∈ (l.foldl (addStep key old) acc).1.sets.map Prod.fst) :
    x ∈ acc.1.sets.map Prod.fst ∨ x = key := by
  induction l generalizing acc with
  | nil => exact Or.inl h
  | cons n t ih =>
    rw [List.foldl_cons] at h
    rcases ih _ h with h1 | h1
    · rw [addStep_eq] at h1
      split at h1
      · exact Or.inl h1
      · exact keys_SAdd _ _ _ _ h1
    · exact Or.inr h1

theorem keys_updateSet (st : Store) (key : String) (new : List String) (x : String)
    (h : x ∈ (updateSet st key new).1.sets.map Prod.fst) :
    x ∈ st.sets.map Prod.fst ∨ x = key := by
  rw [updateSet_eq] at h
  rcases keys_addLoop _ _ _ _ _ h with h1 | h1
  · exact keys_remLoop _ _ _ _ _ h1
  · exact Or.inr h1

theorem hashes_writeUserData (st : Store) (u : User) :
    (writeUserData st u).hashes
      = mapSet st.hashes (userKey u)
          ([("id", u.ID.String), ("type", u.Typ), ("username", u.Username),
            ("loginname", u.LoginName), ("email", u.Email), ("password", u.Password),
            ("salt", u.Salt), ("connected", strbool u.Connected)].foldl
            (fun h fv => mapSet h fv.1 fv.2) ((mapGet st.hashes (userKey u)).getD [])) := by
  unfold writeUserData
  dsimp only
  rw [(updateSet_frame _ _ _).2, (updateSet_frame _ _ _).2]
  rfl

theorem keys_writeUserData (st : Store) (u : User) (x : String)
    (h : x ∈ storeKeys (writeUserData st u)) :
    x ∈ storeKeys st ∨ x = userKey u
      ∨ x = "user-" ++ u.Typ ++ "-" ++ u.ID.String ++ "-rooms"
      ∨ x = "user-" ++ u.Typ ++ "-" ++ u.ID.String ++ "-groups" := by
  unfold storeKeys at h ⊢
  rcases List.mem_append.1 h with h1 | h1
  · rw [hashes_writeUserData, mem_keys_mapSet] at h1
    rcases h1 with h1 | h1
    · exact Or.inl (List.mem_append_left _ h1)
    · exact Or.inr (Or.inl h1)
  · unfold writeUserData at h1
    dsimp only at h1
    rcases keys_updateSet _ _ _ _ h1 with h2 | h2
    · rcases keys_updateSet _ _ _ _ h2 with h3 | h3
      · exact Or.inl (List.mem_append_right _ h3)
      · exact Or.inr (Or.inr (Or.inl h3))
    · exact Or.inr (Or.inr (Or.inr h2))

theorem userKey_mem_writeUserData (st : Store) (u : User) :
    userKey u ∈ storeKeys (writeUserData st u) := by
  unfold storeKeys
  refine List.mem_append_left _ ?_
  rw [hashes_writeUserData, mem_keys_mapSet]
  exact Or.inr rfl

/-! ## Round trip of a user -/

theorem filter_head_of_unique {α : Type} (f : α → Bool) (l : List α) (a : α)
    (hmem : a ∈ l) (hf : f a = true) (huniq : ∀ x ∈ l, f x = true → x = a) :
    ∃ rest, l.filter f = a :: rest := by
  have h1 : a ∈ l.filter f := List.mem_filter.2 ⟨hmem, hf⟩
  cases hl : l.filter f with
  | nil => rw [hl] at h1; cases h1
  | cons b rest =>
    have h2 : b ∈ l.filter f := by rw [hl]; exact List.mem_cons_self _ _
    have h3 := List.mem_filter.1 h2
    exact ⟨rest, by rw [huniq b h3.1 h3.2]⟩

theorem append_ne_of_ne (pre a b : String) (h : a ≠ b) : pre ++ a ≠ pre ++ b := by
  intro he
  apply h
  have h1 := congrArg String.data he
  rw [String.data_append, String.data_append] at h1
  exact String.ext (List.append_cancel_left h1)

theorem getKeySet_writeUserData (st : Store) (u : User)
    (huniq : ∀ k ∈ storeKeys st,
      globMatch ("user-*-*-" ++ u.ID.String).data k.data = true → k = userKey u) :
    ∃ rest, getKeySet (writeUserData st u) ("user-*-*-" ++ u.ID.String)
      = userKey u :: rest := by
  unfold getKeySet Keys
  refine filter_head_of_unique _ _ _ (userKey_mem_writeUserData st u)
    (userPattern_matches u.Typ u.LoginName u.ID) ?_
  intro k hk hm
  rcases keys_writeUserData st u k hk with h1 | h1 | h1 | h1
  · exact huniq k h1 hm
  · exact h1
  · exfalso
    have e : k = ("user-" ++ u.Typ ++ "-" ++ u.ID.String ++ "-room") ++ "s" := by
      rw [h1, String.append_assoc _ "-room" "s"]
      rfl
    rw [e, userPattern_rejects u.ID] at hm
    cases hm
  · exfalso
    have e : k = ("user-" ++ u.Typ ++ "-" ++ u.ID.String ++ "-group") ++ "s" := by
      rw [h1, String.append_assoc _ "-group" "s"]
      rfl
    rw [e, userPattern_rejects u.ID] at hm
    cases hm

theorem boolstr_strbool (b : Bool) : boolstr (strbool b) = b := by
  cases b <;> decide

theorem mem_rooms_writeUserData (st : Store) (u : User) (x : String) :
    x ∈ SMembers (writeUserData st u) ("user-" ++ u.Typ ++ "-" ++ u.ID.String ++ "-rooms")
      ↔ x ∈ u.Rooms := by
  unfold writeUserData
  dsimp only
  rw [(updateSet_frame _ _ _).1 _
    (append_ne_of_ne _ "-rooms" "-groups" (by decide)), mem_updateSet]

theorem mem_groups_writeUserData (st : Store) (u : User) (x : String) :
    x ∈ SMembers (writeUserData st u) ("user-" ++ u.Typ ++ "-" ++ u.ID.String ++ "-groups")
      ↔ x ∈ u.Groups := by
  unfold writeUserData
  dsimp only
  rw [mem_updateSet]

theorem HGetAllMap_writeUserData (st : Store) (u : User) :
    ∃ info, HGetAllMap (writeUserData st u) (userKey u) = info
      ∧ field info "id" = u.ID.String ∧ field info "type" = u.Typ
      ∧ field info "username" = u.Username ∧ field info "loginname" = u.LoginName
      ∧ field info "email" = u.Email ∧ field info "password" = u.Password
      ∧ field info "salt" = u.Salt ∧ field info "connected" = strbool u.Connected := by
  refine ⟨_, rfl, ?_⟩
  unfold HGetAllMap
  rw [hashes_writeUserData, mapGet_mapSet_self]
  simp only [List.foldl_cons, List.foldl_nil, Option.getD_some, field]
  have hne : ∀ a b : String, a ≠ b → ∀ (m : List (String × String)) (v : String),
      mapGet (mapSet m b v) a = mapGet m a := fun a b hab m v => mapGet_mapSet_other m b a v hab
  refine ⟨?_, ?_, ?_, ?_, ?_, ?_, ?_, ?_⟩
  · rw [hne _ _ (by decide), hne _ _ (by decide), hne _ _ (by decide), hne _ _ (by decide),
      hne _ _ (by decide), hne _ _ (by decide), hne _ _ (by decide), mapGet_mapSet_self]
    rfl
  · rw [hne _ _ (by decide), hne _ _ (by decide), hne _ _ (by decide), hne _ _ (by decide),
      hne _ _ (by decide), hne _ _ (by decide), mapGet_mapSet_self]
    rfl
  · rw [hne _ _ (by decide), hne _ _ (by decide), hne _ _ (by decide), hne _ _ (by decide),
      hne _ _ (by decide), mapGet_mapSet_self]
    rfl
  · rw [hne _ _ (by decide), hne _ _ (by decide), hne _ _ (by decide), hne _ _ (by decide),
      mapGet_mapSet_self]
    rfl
  · rw [hne _ _ (by decide), hne _ _ (by decide), hne _ _ (by decide), mapGet_mapSet_self]
    rfl
  · rw [hne _ _ (by decide), hne _ _ (by decide), mapGet_mapSet_self]
    rfl
  · rw [hne _ _ (by decide), mapGet_mapSet_self]
    rfl
  · rw [mapGet_mapSet_self]
    rfl

theorem getUserData_of_key (st : Store) (id key0 : String) (rest : List String)
    (h : getKeySet st ("user-*-*-" ++ id) = key0 :: rest) :
    ∃ v, getUserData st id = some v
      ∧ v.ID = uuidParse (field (HGetAllMap st key0) "id")
      ∧ v.Typ = field (HGetAllMap st key0) "type"
      ∧ v.Username = field (HGetAllMap st key0) "username"
      ∧ v.LoginName = field (HGetAllMap st key0) "loginname"
      ∧ v.Email = field (HGetAllMap st key0) "email"
      ∧ v.Password = field (HGetAllMap st key0) "password"
      ∧ v.Salt = field (HGetAllMap st key0) "salt"
      ∧ v.Connected = boolstr (field (HGetAllMap st key0) "connected")
      ∧ (∀ x, x ∈ v.Rooms ↔
          x ∈ SMembers st ("user-" ++ v.Typ ++ "-" ++ v.ID.String ++ "-rooms"))
      ∧ (∀ x, x ∈ v.Groups ↔
          x ∈ SMembers st ("user-" ++ v.Typ ++ "-" ++ v.ID.String ++ "-groups")) := by
  refine ⟨_, by unfold getUserData; rw [h], ?_⟩
  dsimp only
  refine ⟨?_, ?_, ?_, ?_, ?_, ?_, ?_, ?_, ?_, ?_⟩
  all_goals (split_ifs <;> (try rfl))
  all_goals (intro x; simp_all)

/-! ## Claims -/

/-- C1: after `updateSet key new` the set stored at `key` is exactly the set of entries
of `new`, the set stored at every other key is what it was, and no hash changes. -/
theorem updateSet_reconciles (st : Store) (key : String) (new : List String) :
    (SMembers (updateSet st key new).1 key).toFinset = new.toFinset
      ∧ (∀ x, x ∈ SMembers (updateSet st key new).1 key ↔ x ∈ new)
      ∧ (∀ k, k ≠ key → SMembers (updateSet st key new).1 k = SMembers st k)
      ∧ (updateSet st key new).1.hashes = st.hashes := by
  refine ⟨?_, mem_updateSet st key new, (updateSet_frame st key new).1,
    (updateSet_frame st key new).2⟩
  ext x
  simp [mem_updateSet]

/-- C2: the write commands of `updateSet` are one SRem per element of the current set
that is not in `new`, then one SAdd per entry of `new` that is not in the current set;
an element of both gets no command, and equal element sets give no command at all. -/
theorem updateSet_commands (st : Store) (key : String) (new : List String) :
    (updateSet st key new).2
        = ((SMembers st key).filter (fun o => decide (o ∉ new))).map (Cmd.srem key)
          ++ (new.filter (fun n => decide (n ∉ SMembers st key))).map (Cmd.sadd key)
      ∧ (∀ x, x ∈ SMembers st key → x ∈ new →
          Cmd.srem key x ∉ (updateSet st key new).2
            ∧ Cmd.sadd key x ∉ (updateSet st key new).2)
      ∧ ((∀ x, x ∈ new ↔ x ∈ SMembers st key) → (updateSet st key new).2 = []) := by
  refine ⟨updateSet_log st key new, fun x hx1 hx2 => ?_, fun hs => ?_⟩
  · rw [updateSet_log]
    simp [hx1, hx2]
  · rw [updateSet_log]
    simp only [List.append_eq_nil, List.map_eq_nil_iff, List.filter_eq_nil_iff,
      decide_eq_true_eq, not_not]
    exact ⟨fun x hx => (hs x).2 hx, fun x hx => (hs x).1 hx⟩

/-- C4: an envelope with `Time <= 0` gets the single response 400 on the sender's
connection, whatever its other fields; nothing is relayed and the state is unchanged. -/
theorem handleEnvelope_invalid_time (st : ServerState) (client : Client)
    (p : List (Fin 256)) (message : MasterObj) (ht : message.Time ≤ 0) :
    handleEnvelope st client p message
      = (st, [(client.Conn, Frame.errorFull 400 "missing or invalid time")])
      ∧ (Frame.errorFull 400 "missing or invalid time").code = some 400 := by
  refine ⟨?_, rfl⟩
  unfold handleEnvelope
  rw [if_pos ht]

/-- C5: a `msg` envelope with `Time > 0` and a destination starting with `#` gets the
single response 404 when no such room exists; when the room exists the payload is
written once per entry of the room's member map, to that member's connection, and the
response 200 follows on the sender's connection. The state is unchanged. -/
theorem handleEnvelope_msg_room (st : ServerState) (client : Client)
    (p : List (Fin 256)) (message : MasterObj) (ht : 0 < message.Time)
    (ha : message.Action = "msg") (hp : hasPrefix message.To "#" = true) :
    ((GetRoom st message.To).1 = false →
        handleEnvelope st client p message = (st, [(client.Conn, Frame.errorMin 404)]))
      ∧ ((GetRoom st message.To).1 = true →
        handleEnvelope st client p message
          = (st, (GetRoom st message.To).2.map (fun e => (e.2.Conn, Frame.payload p))
              ++ [(client.Conn, Frame.alertMin 200)])) := by
  have ht2 : ¬ message.Time ≤ 0 := not_le.mpr ht
  unfold handleEnvelope
  rw [if_neg ht2, if_pos ha, if_pos hp]
  cases hg : GetRoom st message.To with
  | mk b room =>
    cases b <;> simp

/-- C6: a `msg` envelope with `Time > 0` and a destination not starting with `#`: when
the destination is a key of the client table the payload is written once, to that
client's connection, and the sender then gets 200; otherwise nothing is relayed and the
sender gets the single response 404. The state is unchanged. -/
theorem handleEnvelope_msg_direct (st : ServerState) (client : Client)
    (p : List (Fin 256)) (message : MasterObj) (hwf : mapWF st.clients)
    (ht : 0 < message.Time) (ha : message.Action = "msg")
    (hp : hasPrefix message.To "#" = false) :
    (∀ c, mapGet st.clients message.To = some c →
        handleEnvelope st client p message
          = (st, [(c.Conn, Frame.payload p), (client.Conn, Frame.alertMin 200)]))
      ∧ (mapGet st.clients message.To = none →
        handleEnvelope st client p message = (st, [(client.Conn, Frame.errorMin 404)])) := by
  have ht2 : ¬ message.Time ≤ 0 := not_le.mpr ht
  have hp2 : ¬ hasPrefix message.To "#" = true := by simp [hp]
  unfold handleEnvelope
  rw [if_neg ht2, if_pos ha, if_neg hp2]
  refine ⟨fun c hc => ?_, fun hn => ?_⟩
  · simp only [relayLoop_present message.To p st.clients _ c hwf hc]
    simp
  · simp only [relayLoop_absent message.To p st.clients _
      ((mapGet_eq_none_iff _ _).1 hn)]
    simp

/-- C9: after a `join` envelope with `Time > 0`, `GetRoom` finds the named room, the
sender's id maps to the sender in it, every id that was a member before is still one
(the entry of every other id is what it was), and the only frame written is the
response 200 on the sender's connection. -/
theorem handleEnvelope_join (st : ServerState) (client : Client)
    (p : List (Fin 256)) (message : MasterObj) (ht : 0 < message.Time)
    (ha : message.Action = "join") :
    (GetRoom (handleEnvelope st client p message).1 message.Room).1 = true
      ∧ mapGet (GetRoom (handleEnvelope st client p message).1 message.Room).2
          client.ID.String = some client
      ∧ (∀ k, k ∈ (GetRoom st message.Room).2.map Prod.fst →
          k ∈ (GetRoom (handleEnvelope st client p message).1 message.Room).2.map Prod.fst)
      ∧ (∀ k, k ≠ client.ID.String →
          mapGet (GetRoom (handleEnvelope st client p message).1 message.Room).2 k
            = mapGet (GetRoom st message.Room).2 k)
      ∧ (handleEnvelope st client p message).2 = [(client.Conn, Frame.alertMin 200)] := by
  have ht2 : ¬ message.Time ≤ 0 := not_le.mpr ht
  have ha2 : ¬ message.Action = "msg" := by rw [ha]; decide
  have hstep : ∃ room0, (GetRoom st message.Room).2 = room0
      ∧ GetRoom (handleEnvelope st client p message).1 message.Room
        = (true, mapSet room0 client.ID.String client)
      ∧ (handleEnvelope st client p message).2 = [(client.Conn, Frame.alertMin 200)] := by
    unfold handleEnvelope
    rw [if_neg ht2, if_neg ha2, if_pos ha]
    cases hr : mapGet st.rooms message.Room with
    | none => exact ⟨[], by simp [GetRoom, hr], by simp [GetRoom, GetNewRoom, hr,
        mapGet_mapSet_self], rfl⟩
    | some room => exact ⟨room, by simp [GetRoom, hr], by simp [GetRoom, hr,
        mapGet_mapSet_self], rfl⟩
  obtain ⟨room0, h0, h1, h2⟩ := hstep
  rw [h1, h0]
  refine ⟨rfl, mapGet_mapSet_self _ _ _, fun k hk => ?_, fun k hk => ?_, h2⟩
  · exact (mem_keys_mapSet _ _ _ _).2 (Or.inl hk)
  · exact mapGet_mapSet_other _ _ _ _ hk

/-- C3, evaluated: with A a member of `#lobby`, a `leave` envelope of A writes no frame
and leaves A in the room, while the same envelope with action `part` removes A and
answers 200; on a room that does not exist `leave` writes nothing and `part` answers 404. -/
theorem handleEnvelope_leave_silent :
    handleEnvelope lobbyState clientA [] ⟨"leave", "", "#lobby", 1⟩ = (lobbyState, [])
      ∧ handleEnvelope lobbyState clientA [] ⟨"part", "", "#lobby", 1⟩
          = ({ lobbyState with rooms := [("#lobby", [])] }, [(1, Frame.alertMin 200)])
      ∧ handleEnvelope lobbyState clientA [] ⟨"leave", "", "#nowhere", 1⟩ = (lobbyState, [])
      ∧ handleEnvelope lobbyState clientA [] ⟨"part", "", "#nowhere", 1⟩
          = (lobbyState, [(1, Frame.errorMin 404)]) := by
  decide

/-- C7: `GenRedisProto cmd` is the text `*`, the decimal argument count and a line end,
then for each argument in order `$`, the decimal number of bytes of the argument, a
line end, the argument and a line end; the empty command gives `*0` and a line end, and
a two-byte character counts as two. -/
theorem GenRedisProto_encoding (cmd : List String) :
    GenRedisProto cmd = respEncoding cmd
      ∧ GenRedisProto [] = "*0\r\n"
      ∧ GenRedisProto ["SET", "é", ""] = "*3\r\n$3\r\nSET\r\n$2\r\né\r\n$0\r\n\r\n" := by
  refine ⟨protoLoop_eq cmd _, by decide, by decide⟩

/-- C10, evaluated: when the member set of a room lists an id for which `getUserData`
finds no key, `getUserData` returns the nil user and `getRoomData` dereferences it. -/
theorem getRoomData_nil_user :
    SMembers ghostStore "room-g-r-list" = ["ghost"]
      ∧ getUserData ghostStore "ghost" = none
      ∧ getRoomData ghostStore "g" "r" = Except.error Fault.nilDereference := by
  refine ⟨by decide, by decide, rfl⟩

/-- C8, amended: for a user whose id has 16 bytes or is nil, on a store in which no key
but the user's own matches `user-*-*-<id>`, `getUserData` after `writeUserData` returns
a user with the same id, type, username, login name, email, password, salt and connected
flag, and whose room and group lists have the same elements as the ones written. -/
theorem writeUserData_getUserData (st : Store) (u : User)
    (hid : u.ID.length = 16 ∨ u.ID = [])
    (huniq : ∀ k ∈ storeKeys st,
      globMatch ("user-*-*-" ++ u.ID.String).data k.data = true → k = userKey u) :
    ∃ v, getUserData (writeUserData st u) u.ID.String = some v
      ∧ v.ID = u.ID ∧ v.Typ = u.Typ ∧ v.Username = u.Username
      ∧ v.LoginName = u.LoginName ∧ v.Email = u.Email ∧ v.Password = u.Password
      ∧ v.Salt = u.Salt ∧ v.Connected = u.Connected
      ∧ v.Rooms.toFinset = u.Rooms.toFinset ∧ v.Groups.toFinset = u.Groups.toFinset := by
  obtain ⟨rest, hkeys⟩ := getKeySet_writeUserData st u huniq
  obtain ⟨v, hv, h1, h2, h3, h4, h5, h6, h7, h8, h9, h10⟩ :=
    getUserData_of_key (writeUserData st u) u.ID.String (userKey u) rest hkeys
  obtain ⟨info, hinfo, f1, f2, f3, f4, f5, f6, f7, f8⟩ := HGetAllMap_writeUserData st u
  rw [hinfo] at h1 h2 h3 h4 h5 h6 h7 h8
  rw [f1, uuidParse_String u.ID hid] at h1
  rw [f2] at h2
  rw [f8, boolstr_strbool] at h8
  refine ⟨v, hv, h1, h2, h3.trans f3, h4.trans f4, h5.trans f5, h6.trans f6, h7.trans f7,
    h8, ?_, ?_⟩
  · ext x
    rw [List.mem_toFinset, List.mem_toFinset, h9, h1, h2, mem_rooms_writeUserData]
  · ext x
    rw [List.mem_toFinset, List.mem_toFinset, h10, h1, h2, mem_groups_writeUserData]

/-- C8 as stated fails: a repeated room name comes back once; with an older record of
the same id in the store the older record is the one read; an id of three bytes comes
back as the nil id. -/
theorem writeUserData_getUserData_differs :
    (getUserData (writeUserData { hashes := [], sets := [] }
          { userA with Rooms := ["#den", "#den"] }) idA.String
        = some { userA with Rooms := ["#den"] }
      ∧ getUserData (writeUserData { hashes := [], sets := [] }
          { userA with Rooms := ["#den", "#den"] }) idA.String
        ≠ some { userA with Rooms := ["#den", "#den"] })
      ∧ (getUserData (writeUserData staleStore userA) userA.ID.String
          = some { userA with LoginName := "old" }
        ∧ getUserData (writeUserData staleStore userA) userA.ID.String ≠ some userA)
      ∧ (getUserData (writeUserData { hashes := [], sets := [] } { userA with ID := [1, 2, 3] })
            (UUID.String [1, 2, 3])
          = some { userA with ID := [] }
        ∧ getUserData (writeUserData { hashes := [], sets := [] } { userA with ID := [1, 2, 3] })
            (UUID.String [1, 2, 3])
          ≠ some { userA with ID := [1, 2, 3] }) := by
  decide

/-! ## Witnesses -/

/-- A `join` envelope of B with time 0 is answered by 400 alone. -/
theorem handleEnvelope_invalid_time_witness :
    (0 : Int) ≤ 0
      ∧ handleEnvelope lobbyState clientB [] ⟨"join", "", "#lobby", 0⟩
          = (lobbyState, [(2, Frame.errorFull 400 "missing or invalid time")]) :=
  ⟨by decide,
    (handleEnvelope_invalid_time lobbyState clientB [] ⟨"join", "", "#lobby", 0⟩
      (by decide)).1⟩

/-- A message of B to `#lobby` reaches its member A, then B gets 200. -/
theorem handleEnvelope_msg_room_witness :
    handleEnvelope lobbyState clientB [104, 105] ⟨"msg", "#lobby", "", 2⟩
      = (lobbyState, [(1, Frame.payload [104, 105]), (2, Frame.alertMin 200)]) :=
  (handleEnvelope_msg_room lobbyState clientB [104, 105] ⟨"msg", "#lobby", "", 2⟩
    (by decide) rfl (by decide)).2 (by decide)

/-- A message of B to the id of A reaches A once, then B gets 200. -/
theorem handleEnvelope_msg_direct_witness :
    handleEnvelope lobbyState clientB [104, 105] ⟨"msg", idA.String, "", 2⟩
      = (lobbyState, [(1, Frame.payload [104, 105]), (2, Frame.alertMin 200)]) :=
  (handleEnvelope_msg_direct lobbyState clientB [104, 105] ⟨"msg", idA.String, "", 2⟩
    (by decide) (by decide) rfl (by decide)).1 clientA (by decide)

/-- B joins the room `#den`, which did not exist, and is found in it afterwards. -/
theorem handleEnvelope_join_witness :
    mapGet (GetRoom (handleEnvelope lobbyState clientB [] ⟨"join", "", "#den", 3⟩).1
        "#den").2 idB.String = some clientB :=
  (handleEnvelope_join lobbyState clientB [] ⟨"join", "", "#den", 3⟩ (by decide) rfl).2.1

/-- Current set `{a, b, c}`, desired `[b, c, d]`: one removal, one addition. -/
theorem updateSet_example :
    updateSet abcStore "k" ["b", "c", "d"]
      = ({ hashes := [], sets := [("k", ["b", "c", "d"])] },
          [Cmd.srem "k" "a", Cmd.sadd "k" "d"]) := by
  decide

/-- User A written next to the record of another user is read back as written. -/
theorem writeUserData_getUserData_witness :
    getUserData (writeUserData otherStore userA) userA.ID.String = some userA
      ∧ ∃ v, getUserData (writeUserData otherStore userA) userA.ID.String = some v
        ∧ v.ID = userA.ID ∧ v.Typ = userA.Typ ∧ v.Username = userA.Username
        ∧ v.LoginName = userA.LoginName ∧ v.Email = userA.Email
        ∧ v.Password = userA.Password ∧ v.Salt = userA.Salt
        ∧ v.Connected = userA.Connected
        ∧ v.Rooms.toFinset = userA.Rooms.toFinset
        ∧ v.Groups.toFinset = userA.Groups.toFinset :=
  ⟨by decide, writeUserData_getUserData otherStore userA (by decide) (by decide)⟩

end Tiberious
